import Mathlib

/-!
Verification of `pyeda/boolalg/boolfunc.py`: the variable registry, the
point/term codec, and the representation-agnostic derived operations of the
`Function` contract, embedded shallowly and checked against the spec.
-/

namespace Boolfunc

/-- `pyeda.util.bit_on(num, bit) = (num >> bit) & 1`. -/
def bit_on (num bit : Nat) : Nat := (num >>> bit) &&& 1

/-- The three fields stored by `Variable.__init__`: `names`, `indices` and the
interned `uniqid`.  Indices are `Int` because Python ints may be negative
before validation rejects them. -/
structure Variable where
  names : List String
  indices : List Int
  uniqid : Nat
deriving DecidableEq

/-- The `(names, indices)` key used by both `VARIABLES` and `_UNIQIDS`. -/
abbrev VarKey := List String × List Int

/-- The name check of `var`: the regex `^[a-zA-Z][a-zA-Z0-9_]*$` (ASCII
classes, as in Python `re`). -/
def validName (s : String) : Bool :=
  match s.toList with
  | [] => false
  | c :: cs => c.isAlpha && cs.all (fun d => d.isAlpha || d.isDigit || d == '_')

/-- The input validation of `var`: at least one name, every name matching the
regex, every index nonnegative. -/
def validKey (k : VarKey) : Bool :=
  (!k.1.isEmpty) && k.1.all validName && k.2.all (fun i => decide (0 ≤ i))

/-- Python `dict` lookup on an insertion-ordered association list. -/
def lookupT {α β : Type} [DecidableEq α] (tbl : List (α × β)) (k : α) : Option β :=
  match tbl with
  | [] => none
  | e :: rest => if e.1 = k then some e.2 else lookupT rest k

/-- Python `dict` assignment on an insertion-ordered association list:
overwrite in place when the key is present, append otherwise. -/
def insertT {α β : Type} [DecidableEq α] (tbl : List (α × β)) (k : α) (v : β) :
    List (α × β) :=
  match tbl with
  | [] => [(k, v)]
  | e :: rest => if e.1 = k then (k, v) :: rest else e :: insertT rest k v

/-- The process-wide registry state: the `VARIABLES` cache of `var`, the
`_UNIQIDS` table and the `_COUNT` counter of `Variable.__init__`. -/
structure Registry where
  varcache : List (VarKey × Variable)
  uniqids : List (VarKey × Nat)
  count : Nat
deriving DecidableEq

/-- The initial module state: both tables empty, `_COUNT = 1`. -/
def Registry.init : Registry := ⟨[], [], 1⟩

/-- `Variable.__init__`: look `(names, indices)` up in `_UNIQIDS`; on a miss
take `_COUNT` as the uniqid, increment `_COUNT` and insert.  The
`with threading.Lock():` around this block acquires a lock object freshly
constructed on every call; sequentially it has no effect (see `threadStep`
for the concurrent reading). -/
def mkVariable (r : Registry) (k : VarKey) : Registry × Variable :=
  match lookupT r.uniqids k with
  | some id => (r, ⟨k.1, k.2, id⟩)
  | none =>
      ({ r with uniqids := insertT r.uniqids k r.count, count := r.count + 1 },
       ⟨k.1, k.2, r.count⟩)

/-- `var(name, index)` after argument normalisation: look the key up in
`VARIABLES`; on a miss construct a `Variable` (which assigns the uniqid) and
cache it. -/
def var (r : Registry) (k : VarKey) : Registry × Variable :=
  match lookupT r.varcache k with
  | some v => (r, v)
  | none =>
      let rv := mkVariable r k
      ({ rv.1 with varcache := insertT rv.1.varcache k rv.2 }, rv.2)

/-- Reachable-state invariant of the registry: the counter is at least 1,
every interned id is positive and below the counter, ids and keys are unique
in `_UNIQIDS`, and every `VARIABLES` entry carries the uniqid that `_UNIQIDS`
assigns to its key. -/
abbrev Inv (r : Registry) : Prop :=
  1 ≤ r.count ∧
  (∀ p ∈ r.uniqids, 1 ≤ p.2 ∧ p.2 < r.count) ∧
  (r.uniqids.map Prod.snd).Nodup ∧
  (r.uniqids.map Prod.fst).Nodup ∧
  (∀ q ∈ r.varcache, lookupT r.uniqids q.1 = some q.2.uniqid)

/-- Local state of one thread running `Variable.__init__`: a program counter
over the four statements of the body, and the local `uniqid` variable. -/
structure ThreadState where
  pc : Nat
  uid : Nat
deriving DecidableEq

/-- The globals touched by `Variable.__init__`. -/
structure Glob where
  uniqids : List (VarKey × Nat)
  count : Nat
deriving DecidableEq

/-- One atomic statement of `Variable.__init__` executed by a thread interning
key `k`.  The `with threading.Lock():` line constructs a fresh lock object on
every call, so acquiring it never blocks and it synchronises nothing between
threads; it is modelled as a no-op and the four statements of the body are
the atomic steps: pc 0 is the `_UNIQIDS` lookup (hit ends the call, a
`KeyError` falls through), pc 1 reads `_COUNT` into `uniqid`, pc 2 increments
`_COUNT`, pc 3 stores `uniqid` into `_UNIQIDS`. -/
def threadStep (g : Glob) (ts : ThreadState) (k : VarKey) : Glob × ThreadState :=
  match ts.pc with
  | 0 =>
      match lookupT g.uniqids k with
      | some id => (g, ⟨4, id⟩)
      | none => (g, ⟨1, ts.uid⟩)
  | 1 => (g, ⟨2, g.count⟩)
  | 2 => ({ g with count := g.count + 1 }, ⟨3, ts.uid⟩)
  | 3 => ({ g with uniqids := insertT g.uniqids k ts.uid }, ⟨4, ts.uid⟩)
  | _ => (g, ts)

/-- Two threads concurrently interning the same key. -/
structure Config2 where
  glob : Glob
  t1 : ThreadState
  t2 : ThreadState
deriving DecidableEq

/-- Run one step of the scheduled thread (`false` = thread 1). -/
def stepConfig (k : VarKey) (c : Config2) (tid : Bool) : Config2 :=
  if tid then
    let r := threadStep c.glob c.t2 k
    ⟨r.1, c.t1, r.2⟩
  else
    let r := threadStep c.glob c.t1 k
    ⟨r.1, r.2, c.t2⟩

/-- Run a whole interleaving from the initial module state. -/
def runSched (k : VarKey) (sched : List Bool) : Config2 :=
  sched.foldl (stepConfig k) ⟨⟨[], 1⟩, ⟨0, 0⟩, ⟨0, 0⟩⟩

/-- The interleaving: thread 1 misses, reads the counter and increments it;
before it stores, thread 2 also misses, reads the incremented counter and
increments; then both store. -/
def raceSched : List Bool :=
  [false, false, false, true, true, true, false, true]

/-- A typed point: the insertion-ordered `{Variable: int}` dict; its values
are the 0/1 ints produced by `bit_on`.  The list is the iteration order of
the dict and coincides with it when the keys are distinct. -/
abbrev Point := List (Variable × Nat)

/-- An untyped point: the pair of `frozenset`s of uniqids `(zeros, ones)`. -/
abbrev Upoint := Finset Nat × Finset Nat

/-- `num2point` loop, with the `enumerate` index threaded explicitly:
`{v: bit_on(num, i) for i, v in enumerate(vs)}`. -/
def num2pointAux (num : Nat) : List Variable → Nat → Point
  | [], _ => []
  | v :: vs, i => (v, bit_on num i) :: num2pointAux num vs (i + 1)

/-- `num2point(num, vs)`. -/
def num2point (num : Nat) (vs : List Variable) : Point :=
  num2pointAux num vs 0

/-- One iteration of the `num2upoint` loop body:
`upoint[bit_on(num, i)].add(v.uniqid)` (the index is always 0 or 1). -/
def upointAdd (up : Upoint) (uid : Nat) (b : Nat) : Upoint :=
  if b = 0 then (insert uid up.1, up.2) else (up.1, insert uid up.2)

/-- `num2upoint` loop, index and accumulator threaded explicitly. -/
def num2upointAux (num : Nat) : List Variable → Nat → Upoint → Upoint
  | [], _, up => up
  | v :: vs, i, up => num2upointAux num vs (i + 1) (upointAdd up v.uniqid (bit_on num i))

/-- `num2upoint(num, vs)`. -/
def num2upoint (num : Nat) (vs : List Variable) : Upoint :=
  num2upointAux num vs 0 (∅, ∅)

/-- One iteration of the `point2upoint` loop body: `upoint[val].add(v.uniqid)`;
a value outside {0, 1} would raise `IndexError` in Python, modelled as `none`. -/
def pointAdd (up : Upoint) (uid : Nat) (val : Nat) : Option Upoint :=
  if val = 0 then some (insert uid up.1, up.2)
  else if val = 1 then some (up.1, insert uid up.2)
  else none

/-- `point2upoint` loop over `point.items()`, accumulator threaded. -/
def point2upointAux : Point → Upoint → Option Upoint
  | [], up => some up
  | (v, val) :: rest, up =>
      match pointAdd up v.uniqid val with
      | some up2 => point2upointAux rest up2
      | none => none

/-- `point2upoint(point)`. -/
def point2upoint (p : Point) : Option Upoint :=
  point2upointAux p (∅, ∅)

/-- `num2term(num, fs, conj)`, generic in the function type `F` with its
negation `__invert__`; `bit_on` yields 0/1 and Python branches on its
truthiness. -/
def num2termAux {F : Type} (neg : F → F) (num : Nat) :
    List F → Nat → Bool → List F
  | [], _, _ => []
  | f :: fs, i, conj =>
      (if conj then (if bit_on num i = 1 then neg f else f)
       else (if bit_on num i = 1 then f else neg f))
        :: num2termAux neg num fs (i + 1) conj

/-- `num2term(num, fs, conj)`. -/
def num2term {F : Type} (neg : F → F) (num : Nat) (fs : List F) (conj : Bool) :
    List F :=
  num2termAux neg num fs 0 conj

/-- `iter_points(vs)`: `num2point(num, vs)` for `num in range(1 << len(vs))`. -/
def iter_points (vs : List Variable) : List Point :=
  (List.range (1 <<< vs.length)).map (fun num => num2point num vs)

/-- `iter_upoints(vs)`: `num2upoint(num, vs)` for `num in range(1 << len(vs))`. -/
def iter_upoints (vs : List Variable) : List Upoint :=
  (List.range (1 <<< vs.length)).map (fun num => num2upoint num vs)

/-- `Function._expect_vars`: `None` defaults to the empty list, otherwise the
checked sequence of Variables is returned as given.  (The single-Variable
normalisation and the `TypeError` branch are outside the embedded claims.) -/
def expect_vars (vs : Option (List Variable)) : List Variable :=
  match vs with
  | none => []
  | some l => l

/-- `Function.iter_cofactors(vs)`: `self.urestrict(upoint)` for each upoint in
`iter_upoints(self._expect_vars(vs))`, generic in the representation via its
`urestrict` primitive. -/
def iter_cofactors {F : Type} (urestrict : Upoint → F)
    (vs : Option (List Variable)) : List F :=
  (iter_upoints (expect_vars vs)).map urestrict

/-- `Function.cofactors(vs)`: the cofactor iterator collected into a tuple. -/
def cofactors {F : Type} (urestrict : Upoint → F)
    (vs : Option (List Variable)) : List F :=
  iter_cofactors urestrict vs

/-- The error raised by `functools.reduce` on an empty sequence with no
initializer (the `EmptyReduction` of the spec). -/
inductive ReduceError where
  | emptyReduction
deriving DecidableEq

/-- `functools.reduce(op, xs)` with no initializer: error on an empty
sequence, otherwise fold from the first element. -/
def reduce {F : Type} (op : F → F → F) : List F → Except ReduceError F
  | [] => .error .emptyReduction
  | x :: xs => .ok (xs.foldl op x)

/-- `Function.smoothing(vs) = functools.reduce(operator.or_, self.iter_cofactors(vs))`. -/
def smoothing {F : Type} (disjoin : F → F → F) (urestrict : Upoint → F)
    (vs : Option (List Variable)) : Except ReduceError F :=
  reduce disjoin (iter_cofactors urestrict vs)

/-- `Function.consensus(vs) = functools.reduce(operator.and_, self.iter_cofactors(vs))`. -/
def consensus {F : Type} (conjoin : F → F → F) (urestrict : Upoint → F)
    (vs : Option (List Variable)) : Except ReduceError F :=
  reduce conjoin (iter_cofactors urestrict vs)

/-- `Function.derivative(vs) = functools.reduce(operator.xor, self.iter_cofactors(vs))`. -/
def derivative {F : Type} (bxor : F → F → F) (urestrict : Upoint → F)
    (vs : Option (List Variable)) : Except ReduceError F :=
  reduce bxor (iter_cofactors urestrict vs)

/-- The `other` operand of `Function.__add__`: a Function, an `farray`
(modelled by its flat element list), or anything else. -/
inductive AddOperand (F : Type) where
  | fn (g : F)
  | arr (gs : List F)
  | other
deriving DecidableEq

/-- The `TypeError` raised by `Function.__add__` on an unsupported operand. -/
inductive AddError where
  | typeError
deriving DecidableEq

/-- `Function.__add__`: `farray([self] + [other])` when `other` is a Function,
`farray([self] + list(other.flat))` when it is an `farray`, else `TypeError`.
The resulting `farray` is modelled by its flat element list. -/
def fadd {F : Type} (self : F) (arg : AddOperand F) : Except AddError (List F) :=
  match arg with
  | .fn g => .ok ([self] ++ [g])
  | .arr gs => .ok ([self] ++ gs)
  | .other => .error .typeError

/-- A signed literal: a Variable or its complement, the minimal concrete
instance of the `__invert__` interface used by `num2term`. -/
structure Literal where
  pos : Bool
  v : Variable
deriving DecidableEq

/-- `__invert__` on literals. -/
def lnot (l : Literal) : Literal := ⟨!l.pos, l.v⟩

/-- The first interned variable of the concrete scenario: `intern(("a",), ())`. -/
def internA : Registry × Variable := var Registry.init (["a"], [])

/-- The second interned variable of the concrete scenario: `intern(("b",), ())`. -/
def internB : Registry × Variable := var internA.1 (["b"], [])

/-- The variable `a` of the concrete scenario. -/
def aVar : Variable := internA.2

/-- The variable `b` of the concrete scenario. -/
def bVar : Variable := internB.2

/-- Decode a point back to its enumeration index: the little-endian value of
the 0/1 bits, in variable order.  Verification-side measure used to state the
enumeration order of `iter_points`. -/
def pointIndex : Point → Nat
  | [] => 0
  | (_, b) :: rest => b + 2 * pointIndex rest

/-- A minimal concrete representation satisfying the Function contract,
used for concrete inputs: a declared support together with an evaluation on
untyped points. -/
structure UFn where
  sup : List Variable
  eval : Upoint → Bool

/-- `urestrict` for `UFn`: drop the fixed variables from the support and fix
their values in the evaluation. -/
def UFn.urestrict (f : UFn) (up : Upoint) : UFn :=
  ⟨f.sup.filter (fun v => !(decide (v.uniqid ∈ up.1) || decide (v.uniqid ∈ up.2))),
   fun q => f.eval (up.1 ∪ q.1, up.2 ∪ q.2)⟩

/-- A concrete one-variable function over `a` (the identity function on its
single input). -/
def exFn : UFn := ⟨[aVar], fun up => decide (aVar.uniqid ∈ up.2)⟩


theorem bit_on_zero (num : Nat) : bit_on num 0 = num % 2 := by
  simp [bit_on, Nat.shiftRight_zero, Nat.and_one_is_mod]

theorem bit_on_succ (num i : Nat) : bit_on num (i + 1) = bit_on (num / 2) i := by
  simp only [bit_on]
  rw [Nat.add_comm i 1, Nat.shiftRight_add, Nat.shiftRight_one]

theorem bit_on_le_one (num i : Nat) : bit_on num i ≤ 1 := by
  simp only [bit_on, Nat.and_one_is_mod]
  omega

theorem lookupT_eq_none {α β : Type} [DecidableEq α] {tbl : List (α × β)} {k : α}
    (h : lookupT tbl k = none) : ∀ p ∈ tbl, p.1 ≠ k := by
  induction tbl with
  | nil => intro p hp; cases hp
  | cons e rest ih =>
      intro p hp
      rw [lookupT] at h
      by_cases he : e.1 = k
      · simp [he] at h
      · simp only [if_neg he] at h
        rcases List.mem_cons.mp hp with rfl | hp2
        · exact he
        · exact ih h p hp2

theorem lookupT_mem {α β : Type} [DecidableEq α] {tbl : List (α × β)} {k : α} {v : β}
    (h : lookupT tbl k = some v) : (k, v) ∈ tbl := by
  induction tbl with
  | nil => simp [lookupT] at h
  | cons e rest ih =>
      rw [lookupT] at h
      by_cases he : e.1 = k
      · obtain ⟨a, b⟩ := e
        simp only [if_pos he, Option.some.injEq] at h
        cases he
        cases h
        exact List.mem_cons_self _ _
      · simp only [if_neg he] at h
        exact List.mem_cons_of_mem _ (ih h)

theorem lookupT_append_ne {α β : Type} [DecidableEq α] {tbl : List (α × β)} {k k2 : α}
    (h : k2 ≠ k) (v : β) : lookupT (tbl ++ [(k, v)]) k2 = lookupT tbl k2 := by
  induction tbl with
  | nil => simp [lookupT, Ne.symm h]
  | cons e rest ih =>
      simp only [List.cons_append, lookupT]
      by_cases he : e.1 = k2 <;> simp [he, ih]

theorem lookupT_append_self {α β : Type} [DecidableEq α] {tbl : List (α × β)} {k : α}
    (h : lookupT tbl k = none) (v : β) : lookupT (tbl ++ [(k, v)]) k = some v := by
  induction tbl with
  | nil => simp [lookupT]
  | cons e rest ih =>
      rw [lookupT] at h
      by_cases he : e.1 = k
      · simp [he] at h
      · simp only [if_neg he] at h
        simp only [List.cons_append, lookupT, if_neg he]
        exact ih h

theorem insertT_of_none {α β : Type} [DecidableEq α] {tbl : List (α × β)} {k : α}
    (h : lookupT tbl k = none) (v : β) : insertT tbl k v = tbl ++ [(k, v)] := by
  induction tbl with
  | nil => rfl
  | cons e rest ih =>
      rw [lookupT] at h
      by_cases he : e.1 = k
      · simp [he] at h
      · simp only [if_neg he] at h
        simp only [insertT, if_neg he, List.cons_append]
        rw [ih h]

theorem var_hit {r : Registry} {k : VarKey} {v : Variable}
    (h : lookupT r.varcache k = some v) : var r k = (r, v) := by
  simp [var, h]

theorem var_miss_hit {r : Registry} {k : VarKey} {id : Nat}
    (h1 : lookupT r.varcache k = none) (h2 : lookupT r.uniqids k = some id) :
    var r k = ({ r with varcache := insertT r.varcache k ⟨k.1, k.2, id⟩ }, ⟨k.1, k.2, id⟩) := by
  simp [var, mkVariable, h1, h2]

theorem var_miss_miss {r : Registry} {k : VarKey}
    (h1 : lookupT r.varcache k = none) (h2 : lookupT r.uniqids k = none) :
    var r k = (⟨insertT r.varcache k ⟨k.1, k.2, r.count⟩,
               insertT r.uniqids k r.count, r.count + 1⟩, ⟨k.1, k.2, r.count⟩) := by
  simp [var, mkVariable, h1, h2]

theorem lookup_id_bounds {r : Registry} (hinv : Inv r) {k : VarKey} {id : Nat}
    (h : lookupT r.uniqids k = some id) : 1 ≤ id ∧ id < r.count :=
  hinv.2.1 (k, id) (lookupT_mem h)

theorem lookup_id_inj {r : Registry} (hinv : Inv r) {k1 k2 : VarKey} {id1 id2 : Nat}
    (h1 : lookupT r.uniqids k1 = some id1) (h2 : lookupT r.uniqids k2 = some id2)
    (hne : k1 ≠ k2) : id1 ≠ id2 := by
  intro he
  have m1 := lookupT_mem h1
  have m2 := lookupT_mem h2
  have heq := List.inj_on_of_nodup_map hinv.2.2.1 m1 m2 he
  exact hne (congrArg Prod.fst heq)

theorem var_uniqids_lookup {r : Registry} (hinv : Inv r) (k : VarKey) :
    lookupT (var r k).1.uniqids k = some (var r k).2.uniqid := by
  cases h1 : lookupT r.varcache k with
  | some v =>
      rw [var_hit h1]
      exact hinv.2.2.2.2 (k, v) (lookupT_mem h1)
  | none =>
      cases h2 : lookupT r.uniqids k with
      | some id => rw [var_miss_hit h1 h2]; exact h2
      | none =>
          rw [var_miss_miss h1 h2]
          show lookupT (insertT r.uniqids k r.count) k = some r.count
          rw [insertT_of_none h2]
          exact lookupT_append_self h2 _

theorem var_uid_of_lookup {r : Registry} (hinv : Inv r) {k : VarKey} {id : Nat}
    (h2 : lookupT r.uniqids k = some id) : (var r k).2.uniqid = id := by
  cases h1 : lookupT r.varcache k with
  | some v =>
      rw [var_hit h1]
      have h3 : lookupT r.uniqids k = some v.uniqid :=
        hinv.2.2.2.2 (k, v) (lookupT_mem h1)
      rw [h2, Option.some.injEq] at h3
      exact h3.symm
  | none => rw [var_miss_hit h1 h2]

theorem var_of_uniqids_none {r : Registry} (hinv : Inv r) {k : VarKey}
    (h2 : lookupT r.uniqids k = none) :
    (var r k).2.uniqid = r.count ∧ (var r k).1.count = r.count + 1 ∧
    (var r k).1.uniqids = r.uniqids ++ [(k, r.count)] := by
  cases h1 : lookupT r.varcache k with
  | some v =>
      have h3 : lookupT r.uniqids k = some v.uniqid :=
        hinv.2.2.2.2 (k, v) (lookupT_mem h1)
      rw [h2] at h3
      cases h3
  | none =>
      rw [var_miss_miss h1 h2]
      exact ⟨rfl, rfl, insertT_of_none h2 _⟩

theorem var_count_le (r : Registry) (k : VarKey) : r.count ≤ (var r k).1.count := by
  cases h1 : lookupT r.varcache k with
  | some v => rw [var_hit h1]
  | none =>
      cases h2 : lookupT r.uniqids k with
      | some id => rw [var_miss_hit h1 h2]
      | none => rw [var_miss_miss h1 h2]; exact Nat.le_succ _

theorem Inv_var {r : Registry} (hinv : Inv r) (k : VarKey) : Inv (var r k).1 := by
  obtain ⟨hc, hb, hns, hnk, hvc⟩ := hinv
  cases h1 : lookupT r.varcache k with
  | some v => rw [var_hit h1]; exact ⟨hc, hb, hns, hnk, hvc⟩
  | none =>
      cases h2 : lookupT r.uniqids k with
      | some id =>
          rw [var_miss_hit h1 h2]
          refine ⟨hc, hb, hns, hnk, ?_⟩
          show ∀ q ∈ insertT r.varcache k ⟨k.1, k.2, id⟩,
            lookupT r.uniqids q.1 = some q.2.uniqid
          rw [insertT_of_none h1]
          intro q hq
          rcases List.mem_append.mp hq with hq2 | hq2
          · exact hvc q hq2
          · rw [List.mem_singleton.mp hq2]
            exact h2
      | none =>
          rw [var_miss_miss h1 h2]
          refine ⟨?_, ?_, ?_, ?_, ?_⟩
          · exact Nat.le_succ_of_le hc
          · show ∀ p ∈ insertT r.uniqids k r.count, 1 ≤ p.2 ∧ p.2 < r.count + 1
            rw [insertT_of_none h2]
            intro p hp
            rcases List.mem_append.mp hp with hp2 | hp2
            · exact ⟨(hb p hp2).1, Nat.lt_succ_of_lt (hb p hp2).2⟩
            · rw [List.mem_singleton.mp hp2]
              exact ⟨hc, Nat.lt_succ_self _⟩
          · show ((insertT r.uniqids k r.count).map Prod.snd).Nodup
            rw [insertT_of_none h2, List.map_append]
            refine List.nodup_append.mpr ⟨hns, by simp, ?_⟩
            intro a ha ha2
            simp only [List.map_cons, List.map_nil, List.mem_singleton] at ha2
            obtain ⟨p, hp, hps⟩ := List.mem_map.mp ha
            have := (hb p hp).2
            omega
          · show ((insertT r.uniqids k r.count).map Prod.fst).Nodup
            rw [insertT_of_none h2, List.map_append]
            refine List.nodup_append.mpr ⟨hnk, by simp, ?_⟩
            intro a ha ha2
            simp only [List.map_cons, List.map_nil, List.mem_singleton] at ha2
            obtain ⟨p, hp, hps⟩ := List.mem_map.mp ha
            exact lookupT_eq_none h2 p hp (hps.trans ha2)
          · show ∀ q ∈ insertT r.varcache k ⟨k.1, k.2, r.count⟩,
              lookupT (insertT r.uniqids k r.count) q.1 = some q.2.uniqid
            rw [insertT_of_none h1, insertT_of_none h2]
            intro q hq
            rcases List.mem_append.mp hq with hq2 | hq2
            · have hq3 : q.1 ≠ k := by
                intro hqk
                have h4 := hvc q hq2
                rw [hqk, h2] at h4
                cases h4
              rw [lookupT_append_ne hq3]
              exact hvc q hq2
            · rw [List.mem_singleton.mp hq2]
              exact lookupT_append_self h2 _

/-- C1: from any reachable registry state, interning the same valid
`(names, indices)` key twice yields the same uniqid and interning two
different keys yields different uniqids; on a miss the allocated id is the
current value of the single counter (which then increments), on a cache hit
the existing identity is returned unchanged; ids are positive, the counter is
monotonic and starts at 1. -/
theorem intern_identity (r : Registry) (k1 k2 : VarKey) (hinv : Inv r)
    (_hv1 : validKey k1 = true) (_hv2 : validKey k2 = true) :
    (var (var r k1).1 k1).2.uniqid = (var r k1).2.uniqid ∧
    (k1 ≠ k2 → (var r k1).2.uniqid ≠ (var (var r k1).1 k2).2.uniqid) ∧
    (lookupT r.uniqids k1 = none →
      (var r k1).2.uniqid = r.count ∧ (var r k1).1.count = r.count + 1) ∧
    (∀ v, lookupT r.varcache k1 = some v → var r k1 = (r, v)) ∧
    1 ≤ (var r k1).2.uniqid ∧
    r.count ≤ (var r k1).1.count ∧
    Registry.init.count = 1 := by
  have hinv1 : Inv (var r k1).1 := Inv_var hinv k1
  have hl1 : lookupT (var r k1).1.uniqids k1 = some (var r k1).2.uniqid :=
    var_uniqids_lookup hinv k1
  refine ⟨?_, ?_, ?_, ?_, ?_, var_count_le r k1, rfl⟩
  · exact var_uid_of_lookup hinv1 hl1
  · intro hne
    cases h2 : lookupT (var r k1).1.uniqids k2 with
    | some id2 =>
        rw [var_uid_of_lookup hinv1 h2]
        exact lookup_id_inj hinv1 hl1 h2 hne
    | none =>
        rw [(var_of_uniqids_none hinv1 h2).1]
        have := (lookup_id_bounds hinv1 hl1).2
        omega
  · intro hmiss
    exact ⟨(var_of_uniqids_none hinv hmiss).1, (var_of_uniqids_none hinv hmiss).2.1⟩
  · intro v hv
    exact var_hit hv
  · exact (lookup_id_bounds hinv1 hl1).1

/-- Witness for C1 at the initial state with keys `("a",)` and `("b",)`. -/
theorem intern_identity_witness :
    Inv Registry.init ∧
    (var Registry.init (["a"], [])).2.uniqid ≠
      (var (var Registry.init (["a"], [])).1 (["b"], [])).2.uniqid :=
  ⟨by decide,
   (intern_identity Registry.init (["a"], []) (["b"], [])
      (by decide) (by decide) (by decide)).2.1 (by decide)⟩

/-- C9: interning is NOT atomic in the code.  `Variable.__init__` wraps its
body in `with threading.Lock():`, but the lock object is freshly constructed
on every call, so it excludes nothing.  Under the interleaving `raceSched`,
two threads interning the same key `("x",)` from the initial state both miss,
read the counter at different times, and finish with uniqids 1 and 2 for the
same key — refuting the claim that concurrent calls with the same key always
observe the same uniqid. -/
theorem intern_race_not_atomic :
    (runSched (["x"], []) raceSched).t1.pc = 4 ∧
    (runSched (["x"], []) raceSched).t2.pc = 4 ∧
    (runSched (["x"], []) raceSched).t1.uid = 1 ∧
    (runSched (["x"], []) raceSched).t2.uid = 2 ∧
    (runSched (["x"], []) raceSched).t1.uid ≠
      (runSched (["x"], []) raceSched).t2.uid := by
  decide


theorem num2pointAux_shift (num : Nat) (vs : List Variable) (i : Nat) :
    num2pointAux num vs (i + 1) = num2pointAux (num / 2) vs i := by
  induction vs generalizing i with
  | nil => rfl
  | cons v vs ih =>
      simp only [num2pointAux, bit_on_succ]
      rw [ih]

theorem num2point_cons (num : Nat) (v : Variable) (vs : List Variable) :
    num2point num (v :: vs) = (v, bit_on num 0) :: num2point (num / 2) vs := by
  simp only [num2point, num2pointAux]
  rw [num2pointAux_shift]

theorem num2upointAux_shift (num : Nat) (vs : List Variable) (i : Nat) (up : Upoint) :
    num2upointAux num vs (i + 1) up = num2upointAux (num / 2) vs i up := by
  induction vs generalizing i up with
  | nil => rfl
  | cons v vs ih =>
      simp only [num2upointAux, bit_on_succ]
      rw [ih]

theorem point2upointAux_num2point (num : Nat) (vs : List Variable) (i : Nat) (up : Upoint) :
    point2upointAux (num2pointAux num vs i) up = some (num2upointAux num vs i up) := by
  induction vs generalizing i up with
  | nil => rfl
  | cons v vs ih =>
      simp only [num2pointAux, point2upointAux, num2upointAux]
      have hb : bit_on num i = 0 ∨ bit_on num i = 1 := by
        have := bit_on_le_one num i
        omega
      rcases hb with hb | hb <;> rw [hb] <;> simp only [pointAdd, upointAdd] <;>
        simp only [if_pos rfl, reduceIte] <;> exact ih _ _

/-- C5: converting an index to a typed point and projecting it to an untyped
point agrees with the direct untyped conversion:
`point2upoint(num2point(num, vs)) == num2upoint(num, vs)` for distinct `vs`
and `0 ≤ num < 2^N` (and the `IndexError` branch of `point2upoint` never
fires, hence the `some`). -/
theorem point2upoint_num2point (num : Nat) (vs : List Variable)
    (_hnd : vs.Nodup) (_hlt : num < 2 ^ vs.length) :
    point2upoint (num2point num vs) = some (num2upoint num vs) :=
  point2upointAux_num2point num vs 0 (∅, ∅)

/-- Witness for C5 at `num = 2`, `vs = [a, b]`. -/
theorem point2upoint_num2point_witness :
    ([aVar, bVar].Nodup ∧ 2 < 2 ^ 2) ∧
    point2upoint (num2point 2 [aVar, bVar]) = some (num2upoint 2 [aVar, bVar]) :=
  ⟨⟨by decide, by decide⟩,
   point2upoint_num2point 2 [aVar, bVar] (by decide) (by decide)⟩

theorem mod_two_pow_bit_facts (num n : Nat) :
    bit_on (num % 2 ^ (n + 1)) 0 = bit_on num 0 ∧
    num % 2 ^ (n + 1) / 2 = num / 2 % 2 ^ n := by
  have h1 : num % 2 ^ (n + 1) = num % 2 + 2 * (num / 2 % 2 ^ n) := by
    rw [Nat.pow_succ, Nat.mul_comm (2 ^ n) 2]
    exact Nat.mod_mul
  constructor
  · rw [bit_on_zero, bit_on_zero]
    exact Nat.mod_mod_of_dvd num ⟨2 ^ n, by rw [Nat.pow_succ]; ring⟩
  · have h2 : num % 2 < 2 := Nat.mod_lt _ (by omega)
    omega

theorem num2point_mod_aux (num : Nat) (vs : List Variable) :
    num2point num vs = num2point (num % 2 ^ vs.length) vs := by
  induction vs generalizing num with
  | nil => rfl
  | cons v vs ih =>
      simp only [List.length_cons]
      have hf := mod_two_pow_bit_facts num vs.length
      rw [num2point_cons, num2point_cons, hf.1, hf.2, ← ih]

theorem num2upointAux_mod (num : Nat) (vs : List Variable) (up : Upoint) :
    num2upointAux num vs 0 up = num2upointAux (num % 2 ^ vs.length) vs 0 up := by
  induction vs generalizing num up with
  | nil => rfl
  | cons v vs ih =>
      simp only [List.length_cons]
      have hf := mod_two_pow_bit_facts num vs.length
      simp only [num2upointAux]
      rw [num2upointAux_shift, num2upointAux_shift, hf.1, hf.2, ← ih]

/-- C10: `num2point` and `num2upoint` depend only on the low `len(vs)` bits
of `num`: for every `num`, including `num ≥ 2^N`, the result equals that of
`num mod 2^N` — out-of-range indices are silently reduced, not rejected. -/
theorem num2point_low_bits (num : Nat) (vs : List Variable) :
    num2point num vs = num2point (num % 2 ^ vs.length) vs ∧
    num2upoint num vs = num2upoint (num % 2 ^ vs.length) vs :=
  ⟨num2point_mod_aux num vs, num2upointAux_mod num vs (∅, ∅)⟩

theorem pointIndex_num2point (num : Nat) (vs : List Variable) :
    pointIndex (num2point num vs) = num % 2 ^ vs.length := by
  induction vs generalizing num with
  | nil => simp [num2point, num2pointAux, pointIndex, Nat.mod_one]
  | cons v vs ih =>
      rw [num2point_cons]
      simp only [pointIndex, List.length_cons]
      rw [ih, bit_on_zero]
      have h1 : num % 2 ^ (vs.length + 1) = num % 2 + 2 * (num / 2 % 2 ^ vs.length) := by
        rw [Nat.pow_succ, Nat.mul_comm (2 ^ vs.length) 2]
        exact Nat.mod_mul
      omega

theorem iter_points_length (vs : List Variable) :
    (iter_points vs).length = 2 ^ vs.length := by
  simp [iter_points, Nat.one_shiftLeft]

theorem iter_points_map_pointIndex (vs : List Variable) :
    (iter_points vs).map pointIndex = List.range (2 ^ vs.length) := by
  simp only [iter_points, Nat.one_shiftLeft, List.map_map]
  have h : ∀ a ∈ List.range (2 ^ vs.length),
      (pointIndex ∘ fun num => num2point num vs) a = id a := by
    intro a ha
    simp only [Function.comp_apply, id_eq]
    rw [pointIndex_num2point]
    exact Nat.mod_eq_of_lt (List.mem_range.mp ha)
  rw [List.map_congr_left h, List.map_id]

theorem iter_points_nodup (vs : List Variable) : (iter_points vs).Nodup := by
  have h := iter_points_map_pointIndex vs
  have h2 : ((iter_points vs).map pointIndex).Nodup := h ▸ List.nodup_range _
  exact h2.of_map _

theorem num2point_zip (vs : List Variable) (bs : List Nat)
    (hlen : bs.length = vs.length) (hb : ∀ b ∈ bs, b ≤ 1) :
    num2point (pointIndex (vs.zip bs)) vs = vs.zip bs ∧
    pointIndex (vs.zip bs) < 2 ^ vs.length := by
  induction vs generalizing bs with
  | nil => simp [num2point, num2pointAux, pointIndex]
  | cons v vs ih =>
      cases bs with
      | nil => simp at hlen
      | cons b bs =>
          have hlen2 : bs.length = vs.length := by simpa using hlen
          have hb2 : ∀ x ∈ bs, x ≤ 1 := fun x hx => hb x (List.mem_cons_of_mem _ hx)
          have hbb : b ≤ 1 := hb b (List.mem_cons_self _ _)
          obtain ⟨ih1, ih2⟩ := ih bs hlen2 hb2
          have hz : (v :: vs).zip (b :: bs) = (v, b) :: vs.zip bs := rfl
          have hpi : pointIndex ((v, b) :: vs.zip bs) = b + 2 * pointIndex (vs.zip bs) := rfl
          rw [hz, hpi]
          constructor
          · rw [num2point_cons]
            have e1 : bit_on (b + 2 * pointIndex (vs.zip bs)) 0 = b := by
              rw [bit_on_zero]
              omega
            have e2 : (b + 2 * pointIndex (vs.zip bs)) / 2 = pointIndex (vs.zip bs) := by
              omega
            rw [e1, e2, ih1]
          · have hp : (2 : Nat) ^ (v :: vs).length = 2 ^ vs.length * 2 := by
              rw [List.length_cons, Nat.pow_succ]
            omega

theorem zip_mem_iter_points (vs : List Variable) (bs : List Nat)
    (hlen : bs.length = vs.length) (hb : ∀ b ∈ bs, b ≤ 1) :
    vs.zip bs ∈ iter_points vs := by
  obtain ⟨h1, h2⟩ := num2point_zip vs bs hlen hb
  simp only [iter_points, Nat.one_shiftLeft, List.mem_map]
  exact ⟨pointIndex (vs.zip bs), List.mem_range.mpr h2, h1⟩

/-- C6: for `|vs| = N` distinct variables, `iter_points(vs)` yields exactly
`2^N` points, pairwise distinct, in strictly increasing order of the
underlying index (decoding the points with `pointIndex` gives exactly
`range(2^N)` in order), and every 0/1 bit combination over `vs` occurs. -/
theorem iter_points_complete (vs : List Variable) (_hnd : vs.Nodup) :
    (iter_points vs).length = 2 ^ vs.length ∧
    (iter_points vs).Nodup ∧
    (iter_points vs).map pointIndex = List.range (2 ^ vs.length) ∧
    ∀ bs : List Nat, bs.length = vs.length → (∀ b ∈ bs, b ≤ 1) →
      vs.zip bs ∈ iter_points vs :=
  ⟨iter_points_length vs, iter_points_nodup vs, iter_points_map_pointIndex vs,
   fun bs h1 h2 => zip_mem_iter_points vs bs h1 h2⟩

/-- Witness for C6 at `vs = [a, b]`. -/
theorem iter_points_complete_witness :
    [aVar, bVar].Nodup ∧ (iter_points [aVar, bVar]).length = 2 ^ 2 :=
  ⟨by decide, (iter_points_complete [aVar, bVar] (by decide)).1⟩


theorem num2termAux_get {F : Type} (neg : F → F) (num : Nat) (fs : List F)
    (j : Nat) (conj : Bool) (i : Nat) :
    (num2termAux neg num fs j conj)[i]? =
      (fs[i]?).map (fun f =>
        if conj then (if bit_on num (j + i) = 1 then neg f else f)
        else (if bit_on num (j + i) = 1 then f else neg f)) := by
  induction fs generalizing j i with
  | nil => simp [num2termAux]
  | cons f fs ih =>
      cases i with
      | zero => simp [num2termAux]
      | succ i =>
          simp only [num2termAux, List.getElem?_cons_succ]
          rw [ih (j + 1) i]
          have h : j + 1 + i = j + (i + 1) := by omega
          rw [h]

/-- C2 (amended): literal `i` of `num2term(num, fs, conj)` is, in minterm
mode (`conj = False`), the positive form of `fs[i]` when bit `i` of `num` is
1 and the negated form when it is 0; in maxterm mode (`conj = True`) the
mapping is the opposite.  (The claim had the two mappings swapped; the table
in the docstring of `num2term` agrees with the code.) -/
theorem num2term_literals {F : Type} (neg : F → F) (num : Nat) (fs : List F)
    (i : Nat) :
    (num2term neg num fs false)[i]? =
      (fs[i]?).map (fun f => if bit_on num i = 1 then f else neg f) ∧
    (num2term neg num fs true)[i]? =
      (fs[i]?).map (fun f => if bit_on num i = 1 then neg f else f) := by
  constructor
  · rw [num2term, num2termAux_get]
    simp
  · rw [num2term, num2termAux_get]
    simp

/-- C2 counterexample: `num = 1`, `fs = (a,)`, `conj = False`: bit 0 of `num`
is 1 and `num2term` returns the positive literal `a`, whereas the claim
prescribes the negated form for a set bit in minterm mode. -/
theorem num2term_minterm_bit_one_positive :
    bit_on 1 0 = 1 ∧
    num2term lnot 1 [Literal.mk true aVar] false = [Literal.mk true aVar] ∧
    num2term lnot 1 [Literal.mk true aVar] false ≠ [lnot (Literal.mk true aVar)] := by
  refine ⟨rfl, rfl, ?_⟩
  decide

/-- C3: with `a = intern(("a",), ())` and `b = intern(("b",), ())`,
`num2term(2, (a, b), conj=False)` returns exactly `(~a, b)`: the complement
of `a` followed by `b` positive. -/
theorem num2term_concrete_scenario :
    num2term lnot 2 [Literal.mk true aVar, Literal.mk true bVar] false
      = [lnot (Literal.mk true aVar), Literal.mk true bVar] := by
  decide

theorem iter_upoints_length (vs : List Variable) :
    (iter_upoints vs).length = 2 ^ vs.length := by
  simp [iter_upoints, Nat.one_shiftLeft]

/-- C4 (amended): `_expect_vars(None)` defaults to the EMPTY variable list,
not to the support of `f`, so `cofactors()` with the variable set unspecified
yields the single restriction of `f` at the empty upoint; with an explicit
`vs` it yields the `2^len(vs)` restrictions over all assignments to `vs`,
enumerated via the untyped-point enumerator. -/
theorem cofactors_spec {F : Type} (urestrict : Upoint → F) (vs : List Variable) :
    cofactors urestrict (some vs) = (iter_upoints vs).map urestrict ∧
    (cofactors urestrict (some vs)).length = 2 ^ vs.length ∧
    expect_vars none = [] ∧
    cofactors urestrict none = [urestrict ((∅ : Finset Nat), (∅ : Finset Nat))] := by
  refine ⟨rfl, ?_, rfl, rfl⟩
  simp [cofactors, iter_cofactors, iter_upoints, expect_vars, Nat.one_shiftLeft]

/-- C4 counterexample: `exFn` has support `[a]` (degree 1), but `cofactors`
with the variable set unspecified produces a single cofactor — the
empty-upoint restriction — and not the `2^1 = 2` restrictions over the
support that the claim requires. -/
theorem cofactors_default_counterexample :
    exFn.sup.length = 1 ∧
    (cofactors (UFn.urestrict exFn) none).length = 1 ∧
    (cofactors (UFn.urestrict exFn) none).length ≠ 2 ^ exFn.sup.length := by
  refine ⟨rfl, rfl, ?_⟩
  decide

/-- C7 (amended): smoothing, consensus and derivative are `reduce` folds by
disjoin, conjoin and xor over the cofactor sequence; `reduce` fails with
`EmptyReduction` exactly on an empty sequence, but every variable set
produces `2^len(vs) ≥ 1` cofactors, so the three operations always return a
value and the `EmptyReduction` failure is unreachable. -/
theorem smoothing_consensus_derivative_folds {F : Type}
    (disjoin conjoin bxor : F → F → F) (urestrict : Upoint → F)
    (vs : Option (List Variable)) :
    smoothing disjoin urestrict vs = reduce disjoin (iter_cofactors urestrict vs) ∧
    consensus conjoin urestrict vs = reduce conjoin (iter_cofactors urestrict vs) ∧
    derivative bxor urestrict vs = reduce bxor (iter_cofactors urestrict vs) ∧
    (iter_cofactors urestrict vs).length = 2 ^ (expect_vars vs).length ∧
    reduce disjoin ([] : List F) = Except.error ReduceError.emptyReduction ∧
    (∃ y, smoothing disjoin urestrict vs = Except.ok y) ∧
    (∃ y, consensus conjoin urestrict vs = Except.ok y) ∧
    (∃ y, derivative bxor urestrict vs = Except.ok y) := by
  have hlen : (iter_cofactors urestrict vs).length = 2 ^ (expect_vars vs).length := by
    simp [iter_cofactors, iter_upoints, Nat.one_shiftLeft]
  have hpos : 0 < 2 ^ (expect_vars vs).length := Nat.pow_pos (by omega)
  obtain ⟨x, xs, hx⟩ : ∃ x xs, iter_cofactors urestrict vs = x :: xs := by
    cases h : iter_cofactors urestrict vs with
    | nil => rw [h] at hlen; simp only [List.length_nil] at hlen; omega
    | cons x xs => exact ⟨x, xs, rfl⟩
  refine ⟨rfl, rfl, rfl, hlen, rfl, ?_, ?_, ?_⟩
  · refine ⟨xs.foldl disjoin x, ?_⟩
    show reduce disjoin (iter_cofactors urestrict vs) = _
    rw [hx]
    rfl
  · refine ⟨xs.foldl conjoin x, ?_⟩
    show reduce conjoin (iter_cofactors urestrict vs) = _
    rw [hx]
    rfl
  · refine ⟨xs.foldl bxor x, ?_⟩
    show reduce bxor (iter_cofactors urestrict vs) = _
    rw [hx]
    rfl

/-- C7 counterexample: no variable set produces zero cofactors.  Even the
minimal candidate — the empty variable set — produces `2^0 = 1` cofactor, and
smoothing then returns a value instead of failing with `EmptyReduction`. -/
theorem smoothing_no_empty_reduction :
    (iter_cofactors (UFn.urestrict exFn) (some [])).length = 1 ∧
    smoothing (fun f _ => f) (UFn.urestrict exFn) (some [])
      = Except.ok (UFn.urestrict exFn ((∅ : Finset Nat), (∅ : Finset Nat))) ∧
    smoothing (fun f _ => f) (UFn.urestrict exFn) (some [])
      ≠ Except.error ReduceError.emptyReduction := by
  refine ⟨rfl, rfl, fun h => ?_⟩
  have h2 : (Except.ok (UFn.urestrict exFn ((∅ : Finset Nat), ∅)) : Except ReduceError UFn)
      = Except.error ReduceError.emptyReduction := h
  exact Except.noConfusion h2

/-- C8 counterexample: both operands are plain Functions, yet `+`
concatenates them into the two-element ordered function array `[f, g]`
rather than returning a single disjunction function (Boolean disjunction is
the `|` operator, `__or__`). -/
theorem fadd_counterexample :
    fadd (Literal.mk true aVar) (AddOperand.fn (Literal.mk true bVar))
      = Except.ok [Literal.mk true aVar, Literal.mk true bVar] ∧
    ([Literal.mk true aVar, Literal.mk true bVar] : List Literal).length = 2 :=
  ⟨rfl, rfl⟩

/-- C8 (amended): `+` always concatenates into an ordered function array —
`[f, g]` when the other operand is a Function, `f` prepended to the elements
when it is an farray — and raises `TypeError` for anything else; it never
computes Boolean disjunction. -/
theorem fadd_spec {F : Type} (f g : F) (gs : List F) :
    fadd f (AddOperand.fn g) = Except.ok [f, g] ∧
    fadd f (AddOperand.arr gs) = Except.ok (f :: gs) ∧
    fadd f (AddOperand.other : AddOperand F) = Except.error AddError.typeError :=
  ⟨rfl, rfl, rfl⟩

end Boolfunc
